import Mathlib

/-!
Verification of the queue library `queue.c` (circular doubly-linked list of
string-valued elements behind a sentinel).

Shallow embedding conventions:
* A queue handle is `Option (List String)`: `none` is a NULL handle, `some l`
  is a valid sentinel whose ring holds the values `l` in order from the head.
* Machine allocation (`malloc`) is modelled by a boolean oracle argument:
  `true` means the allocation call succeeds, `false` means it returns NULL.
* `strcmp(a, b) <= 0` is embedded as `strcmpLe a b`, a lexicographic
  comparison of the code-point sequences (C compares the UTF-8 bytes, whose
  order coincides with code-point order); `strcmp(a, b) == 0` is string
  equality.
* Byte-level buffers (for `q_remove_head` / `q_remove_tail`) are `List Nat`,
  the bytes of the stored value without the terminating NUL; the heap
  allocation made by the inserts is exactly `value ++ [0]`.
-/

/-- Lexicographic comparison of code-point lists, the embedding of
`strcmp(a, b) <= 0` after mapping each character to its code point. -/
def charListLe : List Nat → List Nat → Bool
  | [], _ => true
  | _ :: _, [] => false
  | c :: cs, d :: ds => if c < d then true else if d < c then false else charListLe cs ds

/-- Embedding of `strcmp(a, b) <= 0` from the merge comparator in `queue.c`. -/
def strcmpLe (a b : String) : Bool :=
  charListLe (a.data.map Char.toNat) (b.data.map Char.toNat)

/-- The tortoise-and-hare loop shared by `q_delete_mid` (ring walk with the
sentinel as terminator) and `merge_sort` (NULL-terminated chain walk): `slow`
advances one position and `fast` two per iteration, stopping as soon as `fast`
or its successor reaches the terminator; positions are 0-based indices into a
sequence of `n` elements, the terminator sitting at position `n`. -/
def midLoop (n slow fast : Nat) : Nat :=
  if fast < n ∧ fast + 1 < n then midLoop n (slow + 1) (fast + 2) else slow
termination_by n - fast
decreasing_by omega

/-- Embedding of `q_delete_mid`: NULL or empty handle fails, otherwise the
element the slow pointer lands on (slow starts at index 0, fast at index 1)
is unlinked and released. -/
def q_delete_mid (q : Option (List String)) : Bool × Option (List String) :=
  match q with
  | none => (false, none)
  | some [] => (false, some [])
  | some l => (true, some (l.eraseIdx (midLoop l.length 0 1)))

/-- Embedding of the `list_for_each_safe` walk of `q_delete_dup`: the list is
the remaining suffix of the ring starting at `pos`, the boolean is the
`should_delete` flag; elements moved to the garbage-collector ring disappear
from the result. The walk breaks as soon as `next == head`, i.e. on the last
element, which is therefore always kept. -/
def delDupLoop : List String → Bool → List String
  | [], _ => []
  | [x], _ => [x]
  | x :: y :: t, sd =>
    if x = y then delDupLoop (y :: t) true
    else if sd then delDupLoop (y :: t) false
    else x :: delDupLoop (y :: t) sd

/-- Embedding of `q_delete_dup`: NULL handle fails; an empty ring succeeds as
a no-op before any allocation; otherwise `q_new` allocates the scratch ring
(`allocOk` is the `malloc` oracle for it) and on failure the function returns
false with the queue untouched; on success the walk removes elements. -/
def q_delete_dup (allocOk : Bool) (q : Option (List String)) :
    Bool × Option (List String) :=
  match q with
  | none => (false, none)
  | some [] => (true, some [])
  | some l => if allocOk then (true, some (delDupLoop l false)) else (false, some l)

/-- Embedding of `q_insert_head`. `okElem` and `okBuf` are the `malloc`
oracles for the element and for its string buffer. The result is
`(returned bool, queue after the call, number of successful allocations,
number of frees performed)`; the string copy is exact (`memcpy` of
`strlen` bytes plus a NUL into a buffer of exactly `strlen + 1` bytes). -/
def q_insert_head (okElem okBuf : Bool) (q : Option (List String))
    (s : Option String) : Bool × Option (List String) × Nat × Nat :=
  match q, s with
  | none, _ => (false, none, 0, 0)
  | some l, none => (false, some l, 0, 0)
  | some l, some str =>
    if okElem then
      if okBuf then (true, some (str :: l), 2, 0)
      else (false, some l, 1, 1)
    else (false, some l, 0, 0)

/-- Embedding of `q_insert_tail`; identical to `q_insert_head` except the new
element is spliced at the tail. -/
def q_insert_tail (okElem okBuf : Bool) (q : Option (List String))
    (s : Option String) : Bool × Option (List String) × Nat × Nat :=
  match q, s with
  | none, _ => (false, none, 0, 0)
  | some l, none => (false, some l, 0, 0)
  | some l, some str =>
    if okElem then
      if okBuf then (true, some (l ++ [str]), 2, 0)
      else (false, some l, 1, 1)
    else (false, some l, 0, 0)

/-- `size_t` subtraction of 1 as performed by `bufsize - 1` in C. -/
def sizeTSubOne (n : Nat) : Nat :=
  (n + (2 ^ 64 - 1)) % 2 ^ 64

/-- A `memcpy` read of `n` bytes from an allocation holding exactly `src`:
`none` models the undefined behaviour of reading past the allocation. -/
def memcpyRead (src : List Nat) (n : Nat) : Option (List Nat) :=
  if n ≤ src.length then some (src.take n) else none

/-- The bytes an `sp` buffer holds after
`memcpy(sp, value, bufsize - 1); sp[bufsize - 1] = 0` where the source
allocation is exactly `v ++ [0]`; `none` when the `memcpy` reads out of
bounds. -/
def spWrite (v : List Nat) (bufsize : Nat) : Option (List Nat) :=
  match memcpyRead (v ++ [0]) (sizeTSubOne bufsize) with
  | none => none
  | some bs => some (bs ++ [0])

/-- Embedding of `q_remove_head` over byte-list values. Result:
`(value of the removed element (not released, ownership to the caller),
contents written to sp (outer none: sp is NULL so the copy is skipped;
inner none: out-of-bounds read), queue after the call)`. -/
def q_remove_head (q : Option (List (List Nat))) (sp : Bool) (bufsize : Nat) :
    Option (List Nat) × Option (Option (List Nat)) × Option (List (List Nat)) :=
  match q with
  | none => (none, none, none)
  | some [] => (none, none, some [])
  | some (v :: rest) =>
    (some v, if sp then some (spWrite v bufsize) else none, some rest)

/-- Embedding of `q_remove_tail`: same as `q_remove_head` on the last
element of the ring. -/
def q_remove_tail (q : Option (List (List Nat))) (sp : Bool) (bufsize : Nat) :
    Option (List Nat) × Option (Option (List Nat)) × Option (List (List Nat)) :=
  match q with
  | none => (none, none, none)
  | some [] => (none, none, some [])
  | some l =>
    match l.getLast? with
    | none => (none, none, some l)
    | some v =>
      (some v, if sp then some (spWrite v bufsize) else none, some l.dropLast)

/-- Embedding of the `q_swap` walk: each adjacent pair is swapped
(`list_move` of the first node to just after the second) and the cursor
advances two nodes; a trailing unpaired node is left alone. -/
def swapLoop : List α → List α
  | a :: b :: t => b :: a :: swapLoop t
  | l => l

/-- Embedding of `q_swap`: no effect on a NULL or empty handle. -/
def q_swap : Option (List α) → Option (List α)
  | none => none
  | some l => some (swapLoop l)

/-- Net effect of the `q_reverse` loop on the ring sequence: every node's
successor and predecessor pointers are exchanged and finally the sentinel's
are, so the node visited first ends up last. -/
def reverseRing : List α → List α
  | [] => []
  | x :: t => reverseRing t ++ [x]

/-- Embedding of `q_reverse`: no effect on a NULL or empty handle, pure
pointer relinking otherwise (the element type stays abstract: no value is
read, copied, allocated or released). -/
def q_reverse : Option (List α) → Option (List α)
  | none => none
  | some l => some (reverseRing l)

/-- Closed form of the tortoise-and-hare loop. -/
theorem midLoop_eq (n s f : Nat) : midLoop n s f = s + (n - f) / 2 := by
  rw [midLoop]
  split
  · rw [midLoop_eq n (s + 1) (f + 2)]
    omega
  · omega
termination_by n - f
decreasing_by omega

/-- Injective encoding of a `Nat` list into a single `Nat`; `0` encodes the
empty list, so it plays the role of the NULL pointer in the chain model. -/
def encNatList : List Nat → Nat
  | [] => 0
  | a :: t => Nat.pair a (encNatList t) + 1

/-- Decoding inverse of `encNatList`. -/
def decNatList : Nat → List Nat
  | 0 => []
  | n + 1 => (Nat.unpair n).1 :: decNatList (Nat.unpair n).2
termination_by n => n
decreasing_by exact Nat.lt_succ_of_le (Nat.unpair_right_le n)

theorem decNatList_encNatList : ∀ l : List Nat, decNatList (encNatList l) = l
  | [] => by simp [encNatList, decNatList]
  | a :: t => by
    rw [encNatList, decNatList]
    simp [Nat.unpair_pair, decNatList_encNatList t]

/-- Address of the chain pointer denoting a string chain: `0` (NULL) for the
empty chain, a nonzero address otherwise. -/
def encodeChain (l : List String) : Nat :=
  encNatList (l.map fun s => encNatList (s.data.map Char.toNat))

/-- The chain a pointer value denotes (inverse of `encodeChain`). -/
def decodeChain (n : Nat) : List String :=
  (decNatList n).map fun m => String.mk ((decNatList m).map Char.ofNat)

theorem decodeChain_encodeChain (l : List String) : decodeChain (encodeChain l) = l := by
  unfold decodeChain encodeChain
  rw [decNatList_encNatList, List.map_map]
  have h : ∀ s ∈ l,
      ((fun m => String.mk ((decNatList m).map Char.ofNat)) ∘
        fun s => encNatList (s.data.map Char.toNat)) s = id s := by
    intro s _
    simp only [Function.comp_apply, id_eq]
    rw [decNatList_encNatList, List.map_map]
    have h2 : s.data.map (Char.ofNat ∘ Char.toNat) = s.data := by
      have h3 : ∀ c ∈ s.data, (Char.ofNat ∘ Char.toNat) c = id c := by
        intro c _
        simp only [Function.comp_apply, id_eq]
        exact Char.ofNat_toNat c
      rw [List.map_congr_left h3, List.map_id]
    cases s with
    | mk data => simp only [h2]
  rw [List.map_congr_left h, List.map_id]

/-- Embedding of `merge` from `queue.c`: the loop takes the smaller head
(ties prefer the left chain) and once a chain is exhausted the leftover is
attached by storing the bitwise OR of the two chain pointers. -/
def merge : List String → List String → List String
  | a :: t1, b :: t2 =>
    if strcmpLe a b then a :: merge t1 (b :: t2) else b :: merge (a :: t1) t2
  | l1, l2 => decodeChain (encodeChain l1 ||| encodeChain l2)
termination_by l1 l2 => l1.length + l2.length

/-- Modelled from the spec: the same merge loop, but the leftover chain is
attached by an explicit branch choosing whichever remaining chain is
non-empty. -/
def merge_branch : List String → List String → List String
  | a :: t1, b :: t2 =>
    if strcmpLe a b then a :: merge_branch t1 (b :: t2) else b :: merge_branch (a :: t1) t2
  | l1, l2 => if l1.isEmpty then l2 else l1
termination_by l1 l2 => l1.length + l2.length

/-- Node-level rendering of the source merge, generic in the node type and in
the comparison applied to the nodes' values (the source compares
`strcmp(l->value, r->value) <= 0`); used to state node-identity properties
(stability, permutation). -/
def mergeNodes (le : α → α → Bool) : List α → List α → List α
  | [], l2 => l2
  | l1, [] => l1
  | a :: t1, b :: t2 =>
    if le a b then a :: mergeNodes le t1 (b :: t2) else b :: mergeNodes le (a :: t1) t2
termination_by l1 l2 => l1.length + l2.length

/-- Embedding of `merge_sort` from `queue.c`: chains of length at most one
are returned as-is; otherwise the slow/fast split cuts after the slow
pointer (slow starts at index 0, fast at index 1) and both halves are merged
with the pointer-OR merge. -/
def merge_sort : List String → List String
  | [] => []
  | [a] => [a]
  | a :: b :: t =>
    merge
      (merge_sort ((a :: b :: t).take (midLoop (a :: b :: t).length 0 1 + 1)))
      (merge_sort ((a :: b :: t).drop (midLoop (a :: b :: t).length 0 1 + 1)))
termination_by l => l.length
decreasing_by
  · simp [midLoop_eq]
    omega
  · simp [midLoop_eq]
    omega

/-- Node-level rendering of `merge_sort`, generic in the value comparison. -/
def mergeSortNodes (le : α → α → Bool) : List α → List α
  | [] => []
  | [a] => [a]
  | a :: b :: t =>
    mergeNodes le
      (mergeSortNodes le ((a :: b :: t).take (midLoop (a :: b :: t).length 0 1 + 1)))
      (mergeSortNodes le ((a :: b :: t).drop (midLoop (a :: b :: t).length 0 1 + 1)))
termination_by l => l.length
decreasing_by
  · simp [midLoop_eq]
    omega
  · simp [midLoop_eq]
    omega

/-- Embedding of `q_sort`: NULL or empty handle untouched; otherwise the ring
is linearized, sorted by `merge_sort` and closed back into a ring. -/
def q_sort : Option (List String) → Option (List String)
  | none => none
  | some l => some (merge_sort l)

/-- Pointer-level model of the back-link restore phase of `q_sort`. Nodes are
addresses (`Nat`, with `0` as NULL); `pv` is the current predecessor map and
`ptr` the cursor. `restoreLoop pv ptr chain` performs
`for (; ptr->next; ptr = ptr->next) ptr->next->prev = ptr` along the given
successor chain and returns the final predecessor map together with the final
cursor (the last node). -/
def restoreLoop (pv : Nat → Nat) (ptr : Nat) : List Nat → (Nat → Nat) × Nat
  | [] => (pv, ptr)
  | a :: t => restoreLoop (Function.update pv a ptr) a t

/-- Pointer-level model of the whole restore phase: after the walk,
`ptr->next = head` and `head->prev = ptr` close the ring. Returns the final
successor and predecessor maps, given the sentinel `s`, the sorted successor
chain starting at `s`, and the pre-existing maps. -/
def q_sort_restore (s : Nat) (chain : List Nat) (nx pv : Nat → Nat) :
    (Nat → Nat) × (Nat → Nat) :=
  (Function.update nx (restoreLoop pv s chain).2 s,
   Function.update (restoreLoop pv s chain).1 s (restoreLoop pv s chain).2)

/-- `followsChain nx ptr l` states that from `ptr` the successor map `nx`
walks exactly the nodes of `l` and then hits NULL, i.e. `l` is the
NULL-terminated chain hanging off `ptr`. -/
def followsChain (nx : Nat → Nat) : Nat → List Nat → Bool
  | p, [] => nx p == 0
  | p, a :: t => nx p == a && followsChain nx a t

/-- `linkedFrom nx pv a l z` states the circular doubly-linked invariant
along `a :: l` closed at `z`: each node's successor is the next one, each
node's predecessor is the one before it, and the walk ends with
`nx last = z` and `pv z = last`. -/
def linkedFrom (nx pv : Nat → Nat) : Nat → List Nat → Nat → Bool
  | a, [], z => nx a == z && pv z == a
  | a, b :: t, z => nx a == b && pv b == a && linkedFrom nx pv b t z

theorem restoreLoop_snd (chain : List Nat) :
    ∀ (pv : Nat → Nat) (ptr : Nat), (restoreLoop pv ptr chain).2 = chain.getLastD ptr := by
  induction chain with
  | nil => intro pv ptr; simp [restoreLoop]
  | cons a t ih => intro pv ptr; rw [restoreLoop, ih, List.getLastD_cons]

theorem restoreLoop_fst_not_mem (chain : List Nat) :
    ∀ (pv : Nat → Nat) (ptr x : Nat), x ∉ chain → (restoreLoop pv ptr chain).1 x = pv x := by
  induction chain with
  | nil => intro pv ptr x _; simp [restoreLoop]
  | cons a t ih =>
    intro pv ptr x hx
    rw [restoreLoop, ih]
    · rw [Function.update_apply]
      have hxa : x ≠ a := fun h => hx (h ▸ List.mem_cons_self a t)
      simp [hxa]
    · exact fun h => hx (List.mem_cons_of_mem a h)

theorem restore_linked : ∀ (chain : List Nat) (nx pv : Nat → Nat) (a s : Nat),
    chain.Nodup → a ∉ chain → s ∉ chain → followsChain nx a chain = true →
    linkedFrom (Function.update nx (restoreLoop pv a chain).2 s)
      (Function.update (restoreLoop pv a chain).1 s (restoreLoop pv a chain).2)
      a chain s = true
  | [], nx, pv, a, s, _, _, _, _ => by
    simp [restoreLoop, linkedFrom]
  | b :: t, nx, pv, a, s, hnd, ha, hs, hf => by
    have hnd' : t.Nodup := (List.nodup_cons.mp hnd).2
    have hbt : b ∉ t := (List.nodup_cons.mp hnd).1
    have hst : s ∉ t := fun h => hs (List.mem_cons_of_mem b h)
    have hsb : s ≠ b := fun h => hs (h ▸ List.mem_cons_self b t)
    have hf' : nx a = b ∧ followsChain nx b t = true := by
      have h0 := hf
      simp only [followsChain, Bool.and_eq_true, beq_iff_eq] at h0
      exact h0
    rw [restoreLoop, linkedFrom]
    have hlast : (restoreLoop (Function.update pv b a) b t).2 = t.getLastD b :=
      restoreLoop_snd t (Function.update pv b a) b
    have hlast_mem : (restoreLoop (Function.update pv b a) b t).2 ∈ b :: t := by
      rw [hlast]; exact List.getLastD_mem_cons t b
    have halast : a ≠ (restoreLoop (Function.update pv b a) b t).2 :=
      fun h => ha (h ▸ hlast_mem)
    simp only [Bool.and_eq_true, beq_iff_eq]
    refine ⟨⟨?_, ?_⟩, ?_⟩
    · rw [Function.update_apply, if_neg halast]
      exact hf'.1
    · rw [Function.update_apply, if_neg (fun h => hsb h.symm)]
      rw [restoreLoop_fst_not_mem t (Function.update pv b a) b b hbt]
      rw [Function.update_apply, if_pos rfl]
    · exact restore_linked t nx (Function.update pv b a) b s hnd' hbt hst hf'.2


theorem charListLe_cons_iff (c d : Nat) (cs ds : List Nat) :
    charListLe (c :: cs) (d :: ds) = true ↔
      c < d ∨ (c = d ∧ charListLe cs ds = true) := by
  rw [charListLe]
  by_cases h1 : c < d
  · simp [h1]
  · by_cases h2 : d < c
    · simp [h1, h2]; omega
    · simp [h1, h2]; omega

theorem charListLe_refl : ∀ l : List Nat, charListLe l l = true
  | [] => by rw [charListLe]
  | c :: cs => by
    rw [charListLe_cons_iff]
    exact Or.inr ⟨rfl, charListLe_refl cs⟩

theorem charListLe_trans : ∀ as bs cs : List Nat,
    charListLe as bs = true → charListLe bs cs = true → charListLe as cs = true
  | [], _, _ => by intro _ _; rw [charListLe]
  | _ :: _, [], _ => by intro h _; rw [charListLe] at h; exact absurd h (by simp)
  | _ :: _, _ :: _, [] => by intro _ h; rw [charListLe] at h; exact absurd h (by simp)
  | a :: as, b :: bs, c :: cs => by
    intro h1 h2
    rw [charListLe_cons_iff] at h1 h2 ⊢
    rcases h1 with h1 | ⟨h1e, h1r⟩
    · rcases h2 with h2 | ⟨h2e, _⟩
      · exact Or.inl (Nat.lt_trans h1 h2)
      · exact Or.inl (h2e ▸ h1)
    · rcases h2 with h2 | ⟨h2e, h2r⟩
      · exact Or.inl (h1e ▸ h2)
      · exact Or.inr ⟨h1e.trans h2e, charListLe_trans as bs cs h1r h2r⟩

theorem charListLe_total : ∀ as bs : List Nat,
    charListLe as bs = true ∨ charListLe bs as = true
  | [], _ => by left; rw [charListLe]
  | _ :: _, [] => by right; rw [charListLe]
  | a :: as, b :: bs => by
    rcases Nat.lt_trichotomy a b with h | h | h
    · left; rw [charListLe_cons_iff]; exact Or.inl h
    · rcases charListLe_total as bs with hr | hr
      · left; rw [charListLe_cons_iff]; exact Or.inr ⟨h, hr⟩
      · right; rw [charListLe_cons_iff]; exact Or.inr ⟨h.symm, hr⟩
    · right; rw [charListLe_cons_iff]; exact Or.inl h

theorem strcmpLe_refl (a : String) : strcmpLe a a = true :=
  charListLe_refl _

theorem strcmpLe_trans (a b c : String) :
    strcmpLe a b = true → strcmpLe b c = true → strcmpLe a c = true :=
  charListLe_trans _ _ _

theorem strcmpLe_total (a b : String) : (strcmpLe a b || strcmpLe b a) = true := by
  rcases charListLe_total (a.data.map Char.toNat) (b.data.map Char.toNat) with h | h
  · rw [strcmpLe, h]; rfl
  · rw [strcmpLe, strcmpLe, h]; simp

theorem merge_nil_left (l : List String) : merge [] l = l := by
  simp only [merge]
  have h : encodeChain [] = 0 := rfl
  rw [h, Nat.zero_or, decodeChain_encodeChain]

theorem merge_nil_right (l : List String) : merge l [] = l := by
  match l with
  | [] => exact merge_nil_left []
  | a :: t =>
    simp only [merge]
    have h : encodeChain [] = 0 := rfl
    rw [h, Nat.or_zero, decodeChain_encodeChain]

theorem merge_eq_mergeNodes : ∀ l1 l2 : List String,
    merge l1 l2 = mergeNodes strcmpLe l1 l2
  | [], l2 => by rw [merge_nil_left, mergeNodes]
  | a :: t1, [] => by rw [merge_nil_right]; simp only [mergeNodes]
  | a :: t1, b :: t2 => by
    rw [merge, mergeNodes]
    rw [merge_eq_mergeNodes t1 (b :: t2), merge_eq_mergeNodes (a :: t1) t2]
termination_by l1 l2 => l1.length + l2.length

theorem merge_branch_eq_mergeNodes : ∀ l1 l2 : List String,
    merge_branch l1 l2 = mergeNodes strcmpLe l1 l2
  | [], l2 => by simp only [merge_branch, mergeNodes]; rfl
  | a :: t1, [] => by simp only [merge_branch, mergeNodes]; rfl
  | a :: t1, b :: t2 => by
    rw [merge_branch, mergeNodes]
    rw [merge_branch_eq_mergeNodes t1 (b :: t2), merge_branch_eq_mergeNodes (a :: t1) t2]
termination_by l1 l2 => l1.length + l2.length

theorem mergeNodes_eq_merge_core (le : α → α → Bool) : ∀ l1 l2 : List α,
    mergeNodes le l1 l2 = List.merge l1 l2 le
  | [], l2 => by rw [mergeNodes, List.nil_merge]
  | a :: t1, [] => by simp only [mergeNodes, List.merge_right]
  | a :: t1, b :: t2 => by
    rw [mergeNodes, List.merge]
    rw [mergeNodes_eq_merge_core le t1 (b :: t2), mergeNodes_eq_merge_core le (a :: t1) t2]
termination_by l1 l2 => l1.length + l2.length

theorem mergeSortNodes_eq_core (le : α → α → Bool) : ∀ l : List α,
    mergeSortNodes le l = List.mergeSort l le
  | [] => by rw [mergeSortNodes, List.mergeSort_nil]
  | [a] => by rw [mergeSortNodes, List.mergeSort_singleton]
  | a :: b :: t => by
    have hm : midLoop (a :: b :: t).length 0 1 + 1 = ((a :: b :: t).length + 1) / 2 := by
      rw [midLoop_eq]
      simp
      omega
    rw [mergeSortNodes, hm]
    rw [mergeSortNodes_eq_core le ((a :: b :: t).take (((a :: b :: t).length + 1) / 2)),
      mergeSortNodes_eq_core le ((a :: b :: t).drop (((a :: b :: t).length + 1) / 2)),
      mergeNodes_eq_merge_core]
    rw [List.mergeSort]
    rw [List.splitInTwo_fst, List.splitInTwo_snd]
termination_by l => l.length
decreasing_by
  · simp
    omega
  · simp
    omega

theorem merge_sort_eq_nodes : ∀ l : List String,
    merge_sort l = mergeSortNodes strcmpLe l
  | [] => by rw [merge_sort, mergeSortNodes]
  | [a] => by rw [merge_sort, mergeSortNodes]
  | a :: b :: t => by
    rw [merge_sort, mergeSortNodes]
    rw [merge_sort_eq_nodes ((a :: b :: t).take (midLoop (a :: b :: t).length 0 1 + 1)),
      merge_sort_eq_nodes ((a :: b :: t).drop (midLoop (a :: b :: t).length 0 1 + 1)),
      merge_eq_mergeNodes]
termination_by l => l.length
decreasing_by
  · simp [midLoop_eq]
    omega
  · simp [midLoop_eq]
    omega

theorem merge_sort_eq_core (l : List String) :
    merge_sort l = List.mergeSort l strcmpLe := by
  rw [merge_sort_eq_nodes, mergeSortNodes_eq_core]

/-- Comparison on tagged nodes `(value, original position)` that only looks
at the value, exactly as the source merge compares
`strcmp(l->value, r->value)` on the nodes. -/
def valLe (p q : String × Nat) : Bool := strcmpLe p.1 q.1

theorem valLe_trans (p q r : String × Nat) :
    valLe p q = true → valLe q r = true → valLe p r = true :=
  strcmpLe_trans p.1 q.1 r.1

theorem valLe_total (p q : String × Nat) : (valLe p q || valLe q p) = true :=
  strcmpLe_total p.1 q.1

theorem filter_mergeSortNodes (tl : List (String × Nat)) (v : String) :
    (mergeSortNodes valLe tl).filter (fun p => p.1 == v) =
      tl.filter (fun p => p.1 == v) := by
  rw [mergeSortNodes_eq_core]
  have hpw : (tl.filter (fun p => p.1 == v)).Pairwise (fun a b => valLe a b = true) := by
    apply List.pairwise_of_forall_mem_list
    intro a ha b hb
    have ha1 := List.of_mem_filter ha
    have hb1 := List.of_mem_filter hb
    have ha2 : a.1 = v := by simpa using ha1
    have hb2 : b.1 = v := by simpa using hb1
    rw [valLe, ha2, hb2]
    exact strcmpLe_refl v
  have h1 : (tl.filter (fun p => p.1 == v)).Sublist (List.mergeSort tl valLe) :=
    List.sublist_mergeSort valLe_trans valLe_total hpw (List.filter_sublist tl)
  have h2 : (tl.filter (fun p => p.1 == v)).filter (fun p => p.1 == v) =
      tl.filter (fun p => p.1 == v) := by
    rw [List.filter_eq_self]
    intro a ha
    have h0 := List.of_mem_filter ha
    exact h0
  have h3 := List.Sublist.filter (fun p => p.1 == v) h1
  rw [h2] at h3
  have h4 : ((List.mergeSort tl valLe).filter (fun p => p.1 == v)).Perm
      (tl.filter (fun p => p.1 == v)) :=
    List.Perm.filter _ (List.mergeSort_perm tl valLe)
  exact (h3.eq_of_length h4.length_eq.symm).symm

theorem swapLoop_length : ∀ l : List α, (swapLoop l).length = l.length
  | [] => by simp [swapLoop]
  | [a] => by simp [swapLoop]
  | a :: b :: t => by
    rw [swapLoop]
    simp [swapLoop_length t]

theorem swapLoop_getElem : ∀ (l : List α) (i : Nat), 2 * i + 1 < l.length →
    (swapLoop l)[2 * i]? = l[2 * i + 1]? ∧ (swapLoop l)[2 * i + 1]? = l[2 * i]?
  | [], i, h => by simp at h
  | [a], i, h => by
    simp at h
  | a :: b :: t, 0, h => by
    rw [swapLoop]
    constructor <;> simp
  | a :: b :: t, i + 1, h => by
    have h1 : 2 * i + 1 < t.length := by
      have h2 : 2 * (i + 1) + 1 < t.length + 2 := by simpa using h
      omega
    have ih := swapLoop_getElem t i h1
    rw [swapLoop]
    constructor
    · have e1 : 2 * (i + 1) = 2 * i + 1 + 1 := by omega
      rw [e1, List.getElem?_cons_succ, List.getElem?_cons_succ,
        List.getElem?_cons_succ, List.getElem?_cons_succ]
      exact ih.1
    · have e1 : 2 * (i + 1) = 2 * i + 1 + 1 := by omega
      rw [e1, List.getElem?_cons_succ, List.getElem?_cons_succ,
        List.getElem?_cons_succ, List.getElem?_cons_succ]
      exact ih.2

theorem swapLoop_last : ∀ l : List α, l.length % 2 = 1 →
    (swapLoop l)[l.length - 1]? = l[l.length - 1]?
  | [], h => by simp at h
  | [a], _ => by simp [swapLoop]
  | a :: b :: t, h => by
    have hodd : t.length % 2 = 1 := by
      have h1 : (t.length + 1 + 1) % 2 = 1 := by simpa using h
      omega
    have ih := swapLoop_last t hodd
    rw [swapLoop]
    have e1 : (a :: b :: t).length - 1 = t.length - 1 + 1 + 1 := by
      simp
      omega
    rw [e1, List.getElem?_cons_succ, List.getElem?_cons_succ,
      List.getElem?_cons_succ, List.getElem?_cons_succ]
    exact ih

theorem reverseRing_eq_reverse : ∀ l : List α, reverseRing l = l.reverse
  | [] => by rw [reverseRing, List.reverse_nil]
  | x :: t => by rw [reverseRing, reverseRing_eq_reverse t, List.reverse_cons]

/-- Concrete successor map for the restore-phase witness: sentinel 1, ring
nodes 2 and 3. -/
def nxW : Nat → Nat :=
  fun x => if x = 1 then 2 else if x = 2 then 3 else 0

/-- Concrete (stale) predecessor map for the restore-phase witness. -/
def pvW : Nat → Nat :=
  fun _ => 0

/-- C1 counterexample: on the 2-element queue `["a", "b"]`, `q_delete_mid`
does not remove the element at 0-based index `⌊n/2⌋ = 1`: the slow pointer
lands at index 0, so `"a"` is removed rather than `"b"`. -/
theorem q_delete_mid_claim_counterexample :
    q_delete_mid (some ["a", "b"]) ≠
      (true, some ((["a", "b"] : List String).eraseIdx (["a", "b"].length / 2))) := by
  intro hc
  have h1 : q_delete_mid (some ["a", "b"]) =
      (true, some (["a", "b"].eraseIdx (midLoop (["a", "b"] : List String).length 0 1))) := rfl
  have hm : midLoop (["a", "b"] : List String).length 0 1 = 0 := by
    rw [midLoop_eq]
    decide
  rw [h1, hm] at hc
  exact absurd hc (by decide)

/-- C1 (amended): for every non-empty queue of `n` elements, `q_delete_mid`
removes exactly the element at 0-based index `⌊(n-1)/2⌋ = ⌈n/2⌉ - 1` (for 6
elements, index 2, the 3rd; for 1 element, the only one), returns `true`,
and returns `false` exactly when the handle is absent or the ring is
empty. -/
theorem q_delete_mid_index_spec :
    (∀ l : List String, l ≠ [] →
      q_delete_mid (some l) = (true, some (l.eraseIdx ((l.length - 1) / 2)))) ∧
    (∀ q : Option (List String), (q_delete_mid q).1 = false ↔ q = none ∨ q = some []) := by
  constructor
  · intro l hl
    match l, hl with
    | x :: t, _ =>
      show (true, some ((x :: t).eraseIdx (midLoop (x :: t).length 0 1))) = _
      rw [midLoop_eq, Nat.zero_add]
  · intro q
    match q with
    | none => simp [q_delete_mid]
    | some [] => simp [q_delete_mid]
    | some (x :: t) =>
      have h1 : q_delete_mid (some (x :: t)) =
          (true, some ((x :: t).eraseIdx (midLoop (x :: t).length 0 1))) := rfl
      simp [h1]

/-- Witness for C1: on the singleton queue the amended statement removes the
only element. -/
theorem q_delete_mid_index_spec_witness :
    q_delete_mid (some ["a"]) =
      (true, some ((["a"] : List String).eraseIdx (((["a"] : List String).length - 1) / 2))) :=
  q_delete_mid_index_spec.1 ["a"] (by decide)

/-- C2 evaluation: on the sorted queue `["a","a","b","c","c"]` the code
yields `["b","c"]` — the last element of the trailing duplicate run
survives because the walk breaks before examining the final node — and not
`["b"]` as the claim (and the function's own contract) states; a
duplicate-free queue is left unchanged. -/
theorem q_delete_dup_trailing_dup_eval :
    q_delete_dup true (some ["a", "a", "b", "c", "c"]) = (true, some ["b", "c"]) ∧
    q_delete_dup true (some ["a", "b", "c"]) = (true, some ["a", "b", "c"]) ∧
    (["b", "c"] : List String) ≠ ["b"] := by
  refine ⟨rfl, rfl, by decide⟩

/-- C3 evaluation: `q_remove_head`/`q_remove_tail` `memcpy` exactly
`bufsize - 1` bytes out of the value's allocation. With value `"a"`
(bytes `[97]`, a 2-byte allocation) and `bufsize = 8` the copy reads 7
bytes out of bounds (modelled as `some none`), instead of the claimed
at-most-`min(len, bufsize-1)`-byte copy; truncation of a long value
(value `[97,98,99]`, `bufsize = 3`) does behave as claimed, a NULL `sp`
skips the copy, and the removed element is returned unreleased. -/
theorem q_remove_copy_eval :
    q_remove_head (some [[97]]) true 8 = (some [97], some none, some []) ∧
    q_remove_tail (some [[97]]) true 8 = (some [97], some none, some []) ∧
    q_remove_head (some [[97, 98, 99]]) true 3 =
      (some [97, 98, 99], some (some [97, 98, 0]), some []) ∧
    q_remove_head (some [[97]]) false 8 = (some [97], none, some []) ∧
    q_remove_head none true 8 = (none, none, none) ∧
    q_remove_head (some []) true 8 = (none, none, some []) := by
  refine ⟨?_, ?_, ?_, rfl, rfl, rfl⟩ <;> decide

/-- C4: `q_sort` produces a sequence that is non-decreasing under the
embedded `strcmp` comparison, and the sort is stable: running the same
node-level algorithm on `(value, original position)` nodes compared only by
value, the subsequence of nodes carrying any fixed value is exactly the
original subsequence (equal-valued elements keep their relative order). -/
theorem q_sort_sorted_stable :
    (∀ l l2 : List String, q_sort (some l) = some l2 →
      l2.Pairwise (fun a b => strcmpLe a b = true)) ∧
    (∀ (tl : List (String × Nat)) (v : String),
      (mergeSortNodes valLe tl).filter (fun p => p.1 == v) =
        tl.filter (fun p => p.1 == v)) := by
  constructor
  · intro l l2 h
    have h3 : q_sort (some l) = some (merge_sort l) := rfl
    rw [h3] at h
    have h2 : l2 = merge_sort l := (Option.some.inj h).symm
    rw [h2, merge_sort_eq_core]
    exact List.sorted_mergeSort strcmpLe_trans strcmpLe_total l
  · exact filter_mergeSortNodes

/-- Witness for C4: the sort of `["b", "a"]` is pairwise non-decreasing. -/
theorem q_sort_sorted_stable_witness :
    (merge_sort ["b", "a"]).Pairwise (fun a b => strcmpLe a b = true) :=
  q_sort_sorted_stable.1 ["b", "a"] (merge_sort ["b", "a"]) rfl

/-- C5: the source merge, whose leftover chain is attached by storing the
bitwise OR of the two chain pointers, computes the same chain as the
spec-side merge that attaches whichever remaining chain is non-empty by an
explicit branch, for all pairs of input chains. -/
theorem merge_or_trick_eq_branch (l1 l2 : List String) :
    merge l1 l2 = merge_branch l1 l2 := by
  rw [merge_eq_mergeNodes, merge_branch_eq_mergeNodes]

/-- C6: the inserts fail exactly when the handle is absent, the string is
absent, or an allocation fails; on success the exact string is spliced at
the requested end (the buffer is sized to the input, never truncating); and
on every failure path the queue is unchanged and every allocation performed
has been freed (no leak). -/
theorem q_insert_contract :
    (∀ (oE oB : Bool) (q : Option (List String)) (s : Option String),
      ((q_insert_head oE oB q s).1 = false ↔
        q = none ∨ s = none ∨ oE = false ∨ oB = false) ∧
      ((q_insert_tail oE oB q s).1 = false ↔
        q = none ∨ s = none ∨ oE = false ∨ oB = false)) ∧
    (∀ (l : List String) (str : String),
      q_insert_head true true (some l) (some str) = (true, some (str :: l), 2, 0) ∧
      q_insert_tail true true (some l) (some str) = (true, some (l ++ [str]), 2, 0)) ∧
    (∀ (oE oB : Bool) (q : Option (List String)) (s : Option String),
      ((q_insert_head oE oB q s).1 = false →
        (q_insert_head oE oB q s).2.1 = q ∧
        (q_insert_head oE oB q s).2.2.1 = (q_insert_head oE oB q s).2.2.2) ∧
      ((q_insert_tail oE oB q s).1 = false →
        (q_insert_tail oE oB q s).2.1 = q ∧
        (q_insert_tail oE oB q s).2.2.1 = (q_insert_tail oE oB q s).2.2.2)) := by
  refine ⟨?_, ?_, ?_⟩
  · intro oE oB q s
    cases oE <;> cases oB <;> cases q <;> cases s <;> simp [q_insert_head, q_insert_tail]
  · intro l str
    exact ⟨rfl, rfl⟩
  · intro oE oB q s
    cases oE <;> cases oB <;> cases q <;> cases s <;> simp [q_insert_head, q_insert_tail]

/-- Witness for C6: when the string-buffer allocation fails, the queue is
unchanged and the allocation count equals the free count. -/
theorem q_insert_contract_witness :
    (q_insert_head true false (some ["x"]) (some "y")).2.1 = some ["x"] ∧
    (q_insert_head true false (some ["x"]) (some "y")).2.2.1 =
      (q_insert_head true false (some ["x"]) (some "y")).2.2.2 :=
  (q_insert_contract.2.2 true false (some ["x"]) (some "y")).1 rfl

/-- C7: `q_reverse` is self-inverse on every queue, has no effect on an
absent or empty queue, and performs pure pointer relinking: it is
polymorphic in the element type (so it can neither read nor copy a value)
and its result is a permutation of the input nodes (nothing allocated or
released). -/
theorem q_reverse_involutive :
    (∀ (α : Type) (q : Option (List α)), q_reverse (q_reverse q) = q) ∧
    (∀ α : Type, q_reverse (none : Option (List α)) = none ∧
      q_reverse (some ([] : List α)) = some []) ∧
    (∀ (α : Type) (l : List α), (reverseRing l).Perm l) := by
  refine ⟨?_, ?_, ?_⟩
  · intro α q
    match q with
    | none => rfl
    | some l =>
      show some (reverseRing (reverseRing l)) = some l
      rw [reverseRing_eq_reverse, reverseRing_eq_reverse, List.reverse_reverse]
  · intro α
    exact ⟨rfl, rfl⟩
  · intro α l
    rw [reverseRing_eq_reverse]
    exact List.reverse_perm l

/-- C8: `q_swap` exchanges each adjacent pair — element `2i` and `2i+1`
swap places for every pair in range — leaves the trailing unpaired element
of an odd-length queue in place, maps `[1,2,3,4]` to `[2,1,4,3]` and
`[1,2,3]` to `[2,1,3]`, and has no effect on an absent or empty queue. -/
theorem q_swap_pairs :
    (q_swap (some [1, 2, 3, 4]) = some [2, 1, 4, 3] ∧
      q_swap (some [1, 2, 3]) = some [2, 1, 3]) ∧
    (∀ (α : Type) (l : List α), (swapLoop l).length = l.length) ∧
    (∀ (α : Type) (l : List α) (i : Nat), 2 * i + 1 < l.length →
      (swapLoop l)[2 * i]? = l[2 * i + 1]? ∧ (swapLoop l)[2 * i + 1]? = l[2 * i]?) ∧
    (∀ (α : Type) (l : List α), l.length % 2 = 1 →
      (swapLoop l)[l.length - 1]? = l[l.length - 1]?) ∧
    (∀ α : Type, q_swap (none : Option (List α)) = none ∧
      q_swap (some ([] : List α)) = some []) := by
  refine ⟨⟨rfl, rfl⟩, ?_, ?_, ?_, ?_⟩
  · intro α l
    exact swapLoop_length l
  · intro α l i h
    exact swapLoop_getElem l i h
  · intro α l h
    exact swapLoop_last l h
  · intro α
    exact ⟨rfl, rfl⟩

/-- Witness for C8: the first pair of `[5, 6]` is exchanged, and the
trailing element of `[7, 8, 9]` stays in place. -/
theorem q_swap_pairs_witness :
    ((swapLoop [5, 6])[0]? = ([5, 6] : List Nat)[1]? ∧
      (swapLoop [5, 6])[1]? = ([5, 6] : List Nat)[0]?) ∧
    (swapLoop [7, 8, 9])[2]? = ([7, 8, 9] : List Nat)[2]? :=
  ⟨q_swap_pairs.2.2.1 Nat [5, 6] 0 (by decide),
   q_swap_pairs.2.2.2.1 Nat [7, 8, 9] (by decide)⟩

/-- C9: on a valid non-empty queue, when the allocation of the internal
scratch ring fails, `q_delete_dup` returns `false` with the queue
unmodified — so failure is not limited to an absent handle. -/
theorem q_delete_dup_alloc_failure :
    ∀ l : List String, l ≠ [] → q_delete_dup false (some l) = (false, some l) := by
  intro l hl
  match l, hl with
  | x :: t, _ => rfl

/-- Witness for C9 on the one-element queue. -/
theorem q_delete_dup_alloc_failure_witness :
    q_delete_dup false (some ["a"]) = (false, some ["a"]) :=
  q_delete_dup_alloc_failure ["a"] (by decide)

/-- C10: `q_sort` returns a permutation of its input (nothing dropped,
duplicated, allocated or released — also at the node level, for any node
type and comparison), and the restore phase re-establishes the circular
doubly-linked invariant: starting from any stale predecessor map, after the
walk every node's predecessor is the node before it and the sentinel closes
the ring at both ends. -/
theorem q_sort_perm_ring_invariant :
    (∀ (q : Option (List String)) (l2 : List String), q_sort q = some l2 →
      ∃ l : List String, q = some l ∧ l2.Perm l) ∧
    (∀ (α : Type) (le : α → α → Bool) (l : List α), (mergeSortNodes le l).Perm l) ∧
    (∀ (s : Nat) (chain : List Nat) (nx pv : Nat → Nat),
      (s :: chain).Nodup → 0 ∉ s :: chain → followsChain nx s chain = true →
      linkedFrom (q_sort_restore s chain nx pv).1 (q_sort_restore s chain nx pv).2
        s chain s = true) := by
  refine ⟨?_, ?_, ?_⟩
  · intro q l2 h
    match q with
    | none => exact Option.noConfusion h
    | some l =>
      refine ⟨l, rfl, ?_⟩
      have h3 : q_sort (some l) = some (merge_sort l) := rfl
      rw [h3] at h
      have h2 : l2 = merge_sort l := (Option.some.inj h).symm
      rw [h2, merge_sort_eq_core]
      exact List.mergeSort_perm l strcmpLe
  · intro α le l
    rw [mergeSortNodes_eq_core]
    exact List.mergeSort_perm l le
  · intro s chain nx pv hnd h0 hf
    have hs : s ∉ chain := (List.nodup_cons.mp hnd).1
    have hnd2 : chain.Nodup := (List.nodup_cons.mp hnd).2
    exact restore_linked chain nx pv s s hnd2 hs hs hf

/-- Witness for C10: restoring the ring `sentinel 1 → 2 → 3` from a stale
all-zero predecessor map yields the full circular invariant. -/
theorem q_sort_perm_ring_invariant_witness :
    linkedFrom (q_sort_restore 1 [2, 3] nxW pvW).1 (q_sort_restore 1 [2, 3] nxW pvW).2
      1 [2, 3] 1 = true :=
  q_sort_perm_ring_invariant.2.2 1 [2, 3] nxW pvW (by decide) (by decide) (by decide)
